import Mathlib

set_option maxRecDepth 100000

/-!
Verification development for the binary-calculator expression engine
(`sketch.ino`).  The engine is embedded shallowly: Arduino `String` becomes
`List Char`, the 32-bit signed `long` becomes `Int` reduced by `wrap32`
(signed overflow is modelled as two's-complement wraparound, the behaviour
of avr-gcc on the target), the fixed-capacity `ArduinoQueue`/`SimpleStack`
containers become lists with explicit capacity guards (both libraries drop
a push on a full container and report `false`, which the sketch ignores,
on a pop or peek of an empty container).  Division by zero in C++ has no
defined result, so `executeOperation` returns `Option Int` with `none`
marking that undefined operation; every other path is total.
-/

/-- The sentinel `#define BAD_RESULT -(1L << 31)` from the sketch. -/
def BAD_RESULT : Int := -(2 ^ 31)

/-- Reduce an integer to the 32-bit two's-complement range, the value a
32-bit `long` holds after wraparound. -/
def wrap32 (x : Int) : Int := (x + 2 ^ 31) % 2 ^ 32 - 2 ^ 31

/-- Loop body of `bin2Dec`: left-to-right accumulation, `value <<= 1` or
`value = (value << 1) | 1` per digit, early return `-1` on any character
other than `0`/`1`. -/
def bin2DecAux : Int → List Char → Int
  | v, [] => v
  | v, c :: rest =>
    if c = '0' then bin2DecAux (wrap32 (2 * v)) rest
    else if c = '1' then bin2DecAux (wrap32 (2 * v + 1)) rest
    else -1

/-- `bin2Dec` from the sketch: convert a binary literal to its value,
returning `-1` on an invalid character. -/
def bin2Dec (s : List Char) : Int := bin2DecAux 0 s

/-- A token produced by `lexify`: the matched text and whether it is a
binary operand (`isBinary`) or an operator/parenthesis. -/
structure TokenNode where
  tokenValue : List Char
  isBinary : Bool

/-- Character class of binary digits, `ch == '0' || ch == '1'`. -/
def isBinDigit (c : Char) : Bool := c == '0' || c == '1'

/-- Character class of the operator/parenthesis alphabet recognised by
`lexify`. -/
def isSymChar (c : Char) : Bool :=
  c == '(' || c == ')' || c == '+' || c == '-' || c == '*' || c == '/'

/-- The token cap `#define TOKEN_CAP 100`. -/
def TOKEN_CAP : Nat := 100

/-- Dropping a prefix never lengthens a list (termination helper). -/
theorem lengthDropWhileLe (p : α → Bool) :
    ∀ l : List α, (l.dropWhile p).length ≤ l.length
  | [] => Nat.le_refl _
  | a :: l => by
    rw [List.dropWhile_cons]
    split
    · exact Nat.le_succ_of_le (lengthDropWhileLe p l)
    · exact Nat.le_refl _

/-- Loop body of `lexify`, carrying the running token count.  A maximal
run of binary digits becomes one operand token, each operator or
parenthesis becomes one symbol token, any other character is skipped, and
the loop breaks as soon as the token count reaches `TOKEN_CAP`.  The
recursion is structural on an explicit fuel; every step consumes at least
one input character, so fuel equal to the input length is always enough
(`lexifyAux_fuel` below makes the fuel irrelevant beyond that). -/
def lexifyAux : Nat → List Char → Nat → List TokenNode
  | 0, _, _ => []
  | _ + 1, [], _ => []
  | fuel + 1, c :: rest, n =>
    if TOKEN_CAP ≤ n then []
    else if isBinDigit c then
      ⟨c :: rest.takeWhile isBinDigit, true⟩ ::
        lexifyAux fuel (rest.dropWhile isBinDigit) (n + 1)
    else if isSymChar c then
      ⟨[c], false⟩ :: lexifyAux fuel rest (n + 1)
    else lexifyAux fuel rest n

/-- `lexify` from the sketch. -/
def lexify (s : List Char) : List TokenNode := lexifyAux s.length s 0

/-- `getOperatorPrecedence` from the sketch: `+`,`-` have precedence 1,
`*`,`/` have precedence 2, everything else 0. -/
def getOperatorPrecedence (c : Char) : Nat :=
  if c = '+' ∨ c = '-' then 1
  else if c = '*' ∨ c = '/' then 2
  else 0

/-- `executeOperation` from the sketch.  Addition, subtraction and
multiplication wrap at 32 bits; `/` performs C truncating division but has
no zero-divisor guard in the source, so a zero right operand is C++
undefined behaviour, modelled as `none`.  Any other operator character
returns the `BAD_RESULT` sentinel. -/
def executeOperation (a b : Int) (op : Char) : Option Int :=
  if op = '+' then some (wrap32 (a + b))
  else if op = '-' then some (wrap32 (a - b))
  else if op = '*' then some (wrap32 (a * b))
  else if op = '/' then
    if b = 0 then none else some (wrap32 (Int.tdiv a b))
  else some BAD_RESULT

/-- Encoding of an operator pushed into the output queue:
`static_cast<long>(op) + (1L << 30)`. -/
def opCode (c : Char) : Int := (c.toNat : Int) + 2 ^ 30

/-- Decoding used by the evaluator: `static_cast<char>(token - (1L << 30))`
(the AVR `char` keeps the low 8 bits). -/
def codeToChar (t : Int) : Char := Char.ofNat ((t - 2 ^ 30).toNat % 256)

/-- Push onto a capacity-64 container; on a full container the library
drops the element. -/
def pushCap (x : α) (st : List α) : List α :=
  if 64 ≤ st.length then st else x :: st

/-- Enqueue into the capacity-64 `ArduinoQueue`; on a full queue the
library drops the element. -/
def enq (q : List Int) (x : Int) : List Int :=
  if 64 ≤ q.length then q else q ++ [x]

/-- The `)` loop of the shunting phase: pop operators to the output queue
until the stack is empty or a `(` is on top (the `(` is left in place
here; the caller then removes it). -/
def popUntilParen : List Char → List Int → List Char × List Int
  | [], q => ([], q)
  | t :: rest, q =>
    if t = '(' then (t :: rest, q)
    else popUntilParen rest (enq q (opCode t))

/-- The operator loop of the shunting phase: while the stack top is not
`(` and its precedence is at least the current operator's, pop it to the
output queue. -/
def popOps (cur : Char) : List Char → List Int → List Char × List Int
  | [], q => ([], q)
  | t :: rest, q =>
    if t ≠ '(' ∧ getOperatorPrecedence cur ≤ getOperatorPrecedence t then
      popOps cur rest (enq q (opCode t))
    else (t :: rest, q)

/-- One token of the shunting-yard phase of `interpretTokens`, mapping an
(operator stack, output queue) pair to its successor. -/
def shuntToken (st : List Char) (q : List Int) (tok : TokenNode) :
    List Char × List Int :=
  if tok.isBinary then (st, enq q (bin2Dec tok.tokenValue))
  else
    let c := tok.tokenValue.headD (Char.ofNat 0)
    if c = '(' then (pushCap c st, q)
    else if c = ')' then
      let p := popUntilParen st q
      (p.1.tail, p.2)
    else
      let p := popOps c st q
      (pushCap c p.1, p.2)

/-- The shunting-yard loop over all tokens. -/
def shuntAll : List TokenNode → List Char → List Int → List Char × List Int
  | [], st, q => (st, q)
  | t :: ts, st, q =>
    let p := shuntToken st q t
    shuntAll ts p.1 p.2

/-- After the token loop, pop every remaining stacked operator (including
any unmatched `(`) into the output queue. -/
def drainStack : List Char → List Int → List Int
  | [], q => q
  | c :: rest, q => drainStack rest (enq q (opCode c))

/-- The RPN-evaluation loop of `interpretTokens` together with its final
check: a queue element greater than `1L << 30` is treated as an operator
(pop two operands, apply, push, aborting with `BAD_RESULT` if operands are
missing or the operation yields `BAD_RESULT`), anything else is pushed as
an operand; at the end exactly one value must remain. -/
def evalLoop : List Int → List Int → Option Int
  | [], stack =>
    match stack with
    | [r] => some r
    | _ => some BAD_RESULT
  | t :: rest, stack =>
    if 2 ^ 30 < t then
      match stack with
      | b :: a :: stk =>
        match executeOperation a b (codeToChar t) with
        | none => none
        | some r =>
          if r = BAD_RESULT then some BAD_RESULT
          else evalLoop rest (pushCap r stk)
      | _ => some BAD_RESULT
    else evalLoop rest (pushCap t stack)

/-- `interpretTokens` from the sketch: shunting-yard translation followed
by RPN evaluation. -/
def interpretTokens (tokens : List TokenNode) : Option Int :=
  let p := shuntAll tokens [] []
  evalLoop (drainStack p.1 p.2) []

/-- `parseAndEvaluate` from the sketch: empty input and an input with no
tokens return the `BAD_RESULT` sentinel, otherwise the token list is
interpreted. -/
def parseAndEvaluate (expr : List Char) : Option Int :=
  if expr.length = 0 then some BAD_RESULT
  else
    let tokens := lexify expr
    if tokens.length = 0 then some BAD_RESULT
    else interpretTokens tokens

/-- The text `displayInDecimal` emits for one token: the decimal value of
an operand (or `?` when `bin2Dec` is negative), the literal text of a
symbol. -/
def tokenText (t : TokenNode) : String :=
  if t.isBinary then
    if 0 ≤ bin2Dec t.tokenValue then Nat.repr (bin2Dec t.tokenValue).toNat
    else "?"
  else String.mk t.tokenValue

/-- `displayInDecimal` from the sketch: re-tokenize the input and append
each token text followed by one space. -/
def displayInDecimal (expr : List Char) : String :=
  (lexify expr).foldl (fun out t => out ++ tokenText t ++ " ") ""

/-- Character class of the four operator characters, as tested by
`isValidExpression`. -/
def isOpChar (c : Char) : Bool := c == '+' || c == '-' || c == '*' || c == '/'

/-- The scanning loop of `isValidExpression`, carrying the previous
character (none at the first position) and the running open-parenthesis
count. -/
def validLoop : Option Char → Int → List Char → Bool
  | _, opn, [] => opn == 0
  | prev, opn, c :: rest =>
    let opn2 := if c = '(' then opn + 1 else if c = ')' then opn - 1 else opn
    if opn2 < 0 then false
    else
      match prev with
      | none => validLoop (some c) opn2 rest
      | some p =>
        if isOpChar p && isOpChar c then false
        else if (p == '0' || p == '1' || p == ')') && c == '(' then false
        else if p == ')' && (c == '0' || c == '1' || c == '(') then false
        else if (c == '*' || c == '/') && p == '(' then false
        else validLoop (some c) opn2 rest

/-- `isValidExpression` from the sketch: reject empty input, a bad first
or last character, and then scan with `validLoop`. -/
def isValidExpression (expr : List Char) : Bool :=
  match expr with
  | [] => false
  | c :: rest =>
    if c == '+' || c == '*' || c == '/' then false
    else if isOpChar ((c :: rest).getLastD c) then false
    else validLoop none 0 (c :: rest)

/-!
Reference definitions.  These follow the wording of the specification and
are compared against the embedded source functions above: the mathematical
big-endian value of a binary literal, the token count of an input with no
cap applied, the maximal digit runs of an operand-only input, and the
rejection conditions listed for the validator.
-/

/-- The big-endian value of a binary-digit string, with accumulator. -/
def binValFrom (a : Nat) (s : List Char) : Nat :=
  s.foldl (fun x c => 2 * x + (if c = '1' then 1 else 0)) a

/-- The big-endian value of a binary-digit string. -/
def binVal (s : List Char) : Nat := binValFrom 0 s

/-- The same fold over `Int`, used to relate `bin2Dec` to `binVal`. -/
def intValFrom (a : Int) (s : List Char) : Int :=
  s.foldl (fun x c => 2 * x + (if c = '1' then 1 else 0)) a

/-- Token count of an input with no cap applied (fuel as in `lexifyAux`):
one token per maximal binary-digit run, one per operator or
parenthesis. -/
def countTokensAux : Nat → List Char → Nat
  | 0, _ => 0
  | _ + 1, [] => 0
  | fuel + 1, c :: rest =>
    if isBinDigit c then countTokensAux fuel (rest.dropWhile isBinDigit) + 1
    else if isSymChar c then countTokensAux fuel rest + 1
    else countTokensAux fuel rest

/-- Token count of an input with no cap applied. -/
def countTokens (s : List Char) : Nat := countTokensAux s.length s

/-- The maximal binary-digit runs of an input, with fuel as in
`lexifyAux`. -/
def operandRunsAux : Nat → List Char → List (List Char)
  | 0, _ => []
  | _ + 1, [] => []
  | fuel + 1, c :: rest =>
    if isBinDigit c then
      (c :: rest.takeWhile isBinDigit) ::
        operandRunsAux fuel (rest.dropWhile isBinDigit)
    else operandRunsAux fuel rest

/-- The maximal binary-digit runs of an input (its operands, in order). -/
def operandRuns (s : List Char) : List (List Char) :=
  operandRunsAux s.length s

/-- An adjacent pair the validator is claimed to reject: two operator
characters, an operand digit or `)` followed by `(`, a `)` followed by an
operand digit or `(`, or a `(` followed by `*` or `/`. -/
def badPair (p c : Char) : Bool :=
  (isOpChar p && isOpChar c) ||
  ((p == '0' || p == '1' || p == ')') && c == '(') ||
  (p == ')' && (c == '0' || c == '1' || c == '(')) ||
  ((c == '*' || c == '/') && p == '(')

/-- Whether some adjacent pair of the string is a `badPair`. -/
def hasBadPair : List Char → Bool
  | p :: c :: rest => badPair p c || hasBadPair (c :: rest)
  | _ => false

/-- Contribution of one character to the running open-parenthesis count. -/
def parenDelta (c : Char) : Int :=
  if c = '(' then 1 else if c = ')' then -1 else 0

/-- The running open-parenthesis count over a whole string. -/
def runCount (l : List Char) : Int := l.foldl (fun a c => a + parenDelta c) 0

/-- Whether the running open-parenthesis count goes below zero on some
prefix of the string. -/
def dipsNegative (s : List Char) : Bool :=
  (List.range (s.length + 1)).any (fun n => decide (runCount (s.take n) < 0))

/-- Whether the string begins with `+`, `*` or `/`. -/
def startsBadly (s : List Char) : Bool :=
  match s with
  | [] => false
  | c :: _ => c == '+' || c == '*' || c == '/'

/-- Whether the string ends with one of `+ - * /`. -/
def endsBadly (s : List Char) : Bool :=
  match s.getLast? with
  | some c => isOpChar c
  | none => false

/-!
Helper lemmas.
-/

/-- `wrap32` fixes every value already in the 32-bit signed range. -/
theorem wrap32_id {x : Int} (h0 : -(2 ^ 31) ≤ x) (h1 : x < 2 ^ 31) :
    wrap32 x = x := by
  unfold wrap32
  omega

/-- `wrap32` always lands in the 32-bit signed range. -/
theorem wrap32_mem (x : Int) : -(2 ^ 31) ≤ wrap32 x ∧ wrap32 x < 2 ^ 31 := by
  unfold wrap32
  omega

/-- Wrapping the accumulator first does not change a wrapped affine step. -/
theorem wrap32_step (a d : Int) :
    wrap32 (2 * wrap32 a + d) = wrap32 (2 * a + d) := by
  unfold wrap32
  omega

theorem takeWhile_all {p : α → Bool} :
    ∀ {l : List α}, (∀ c ∈ l, p c = true) → l.takeWhile p = l
  | [], _ => rfl
  | a :: l, h => by
    rw [List.takeWhile_cons_of_pos (h a (List.mem_cons_self a l)),
      takeWhile_all fun c hc => h c (List.mem_cons_of_mem a hc)]

theorem dropWhile_all {p : α → Bool} :
    ∀ {l : List α}, (∀ c ∈ l, p c = true) → l.dropWhile p = []
  | [], _ => rfl
  | a :: l, h => by
    rw [List.dropWhile_cons_of_pos (h a (List.mem_cons_self a l))]
    exact dropWhile_all fun c hc => h c (List.mem_cons_of_mem a hc)

theorem takeWhile_append_all {p : α → Bool} :
    ∀ {l : List α}, (∀ c ∈ l, p c = true) →
      ∀ r : List α, (l ++ r).takeWhile p = l ++ r.takeWhile p
  | [], _, r => rfl
  | a :: l, h, r => by
    rw [List.cons_append,
      List.takeWhile_cons_of_pos (h a (List.mem_cons_self a l)),
      takeWhile_append_all (fun c hc => h c (List.mem_cons_of_mem a hc)) r]
    rfl

theorem dropWhile_append_all {p : α → Bool} :
    ∀ {l : List α}, (∀ c ∈ l, p c = true) →
      ∀ r : List α, (l ++ r).dropWhile p = r.dropWhile p
  | [], _, r => rfl
  | a :: l, h, r => by
    rw [List.cons_append,
      List.dropWhile_cons_of_pos (h a (List.mem_cons_self a l))]
    exact dropWhile_append_all (fun c hc => h c (List.mem_cons_of_mem a hc)) r

/-- The accumulator never exceeds the value of the fold. -/
theorem binValFrom_le :
    ∀ (s : List Char) (a : Nat), a ≤ binValFrom a s
  | [], a => Nat.le_refl a
  | c :: rest, a => by
    have h := binValFrom_le rest (2 * a + (if c = '1' then 1 else 0))
    calc a ≤ 2 * a + (if c = '1' then 1 else 0) := by omega
    _ ≤ _ := h

theorem binValFrom_cons (a : Nat) (c : Char) (s : List Char) :
    binValFrom a (c :: s) = binValFrom (2 * a + (if c = '1' then 1 else 0)) s :=
  rfl

theorem intValFrom_cons (a : Int) (c : Char) (s : List Char) :
    intValFrom a (c :: s) = intValFrom (2 * a + (if c = '1' then 1 else 0)) s :=
  rfl

/-- The `Int` fold is the cast of the `Nat` fold. -/
theorem intValFrom_cast :
    ∀ (s : List Char) (a : Nat), intValFrom (a : Int) s = (binValFrom a s : Int)
  | [], a => rfl
  | c :: rest, a => by
    rw [intValFrom_cons, binValFrom_cons]
    have : ((2 : Int) * (a : Int) + (if c = '1' then 1 else 0)) =
        ((2 * a + (if c = '1' then 1 else 0) : Nat) : Int) := by
      split <;> push_cast <;> ring
    rw [this]
    exact intValFrom_cast rest _

/-- On an all-digit literal, `bin2Dec` computes the wrapped value of the
big-endian numeral. -/
theorem bin2DecAux_wrap :
    ∀ (s : List Char), (∀ c ∈ s, isBinDigit c = true) →
      ∀ a : Int, bin2DecAux (wrap32 a) s = wrap32 (intValFrom a s)
  | [], _, a => rfl
  | c :: rest, h, a => by
    have hc : isBinDigit c = true := h c (List.mem_cons_self c rest)
    have hrest : ∀ x ∈ rest, isBinDigit x = true :=
      fun x hx => h x (List.mem_cons_of_mem c hx)
    rw [intValFrom_cons]
    by_cases h0 : c = '0'
    · have hc1 : ¬ c = '1' := by rw [h0]; decide
      rw [show bin2DecAux (wrap32 a) (c :: rest) =
          bin2DecAux (wrap32 (2 * wrap32 a)) rest by simp [bin2DecAux, h0]]
      have hstep := wrap32_step a 0
      simp only [add_zero] at hstep
      rw [hstep]
      rw [show (if c = '1' then (1 : Int) else 0) = 0 by simp [hc1]]
      rw [add_zero]
      exact bin2DecAux_wrap rest hrest (2 * a)
    · have h1 : c = '1' := by
        simp only [isBinDigit, Bool.or_eq_true, beq_iff_eq] at hc
        tauto
      rw [show bin2DecAux (wrap32 a) (c :: rest) =
          bin2DecAux (wrap32 (2 * wrap32 a + 1)) rest by simp [bin2DecAux, h0, h1]]
      rw [wrap32_step a 1]
      rw [show (if c = '1' then (1 : Int) else 0) = 1 by simp [h1]]
      exact bin2DecAux_wrap rest hrest (2 * a + 1)

/-- On an all-digit literal, `bin2Dec` is the wrapped big-endian value. -/
theorem bin2Dec_wrap (s : List Char) (h : ∀ c ∈ s, isBinDigit c = true) :
    bin2Dec s = wrap32 ((binVal s : Int)) := by
  have h0 : wrap32 0 = 0 := by unfold wrap32; omega
  have := bin2DecAux_wrap s h 0
  rw [h0] at this
  rw [bin2Dec, this]
  have h2 := intValFrom_cast s 0
  rw [Nat.cast_zero] at h2
  rw [h2]
  rfl

/-- On an all-digit literal whose value fits below `2 ^ 31`, `bin2Dec`
computes the value exactly. -/
theorem bin2Dec_exact (s : List Char) (h : ∀ c ∈ s, isBinDigit c = true)
    (hv : binVal s < 2 ^ 31) : bin2Dec s = (binVal s : Int) := by
  rw [bin2Dec_wrap s h]
  refine wrap32_id ?_ ?_
  · have := Int.natCast_nonneg (binVal s)
    omega
  · exact_mod_cast hv

/-- A literal containing a non-digit decodes to the `-1` sentinel. -/
theorem bin2DecAux_invalid :
    ∀ (s : List Char), (∃ c ∈ s, isBinDigit c = false) →
      ∀ a : Int, bin2DecAux a s = -1
  | [], h, a => by simp at h
  | c :: rest, h, a => by
    by_cases hc : isBinDigit c = true
    · have : ∃ x ∈ rest, isBinDigit x = false := by
        rcases h with ⟨x, hx, hxf⟩
        rcases List.mem_cons.1 hx with rfl | hx
        · rw [hc] at hxf; cases hxf
        · exact ⟨x, hx, hxf⟩
      simp only [isBinDigit, Bool.or_eq_true, beq_iff_eq] at hc
      rcases hc with h0 | h1
      · rw [show bin2DecAux a (c :: rest) = bin2DecAux (wrap32 (2 * a)) rest by
          simp [bin2DecAux, h0]]
        exact bin2DecAux_invalid rest this _
      · by_cases h0 : c = '0'
        · rw [show bin2DecAux a (c :: rest) = bin2DecAux (wrap32 (2 * a)) rest by
            simp [bin2DecAux, h0]]
          exact bin2DecAux_invalid rest this _
        · rw [show bin2DecAux a (c :: rest) = bin2DecAux (wrap32 (2 * a + 1)) rest by
            simp [bin2DecAux, h0, h1]]
          exact bin2DecAux_invalid rest this _
    · have h0 : ¬ c = '0' := by
        intro h0; apply hc; simp [isBinDigit, h0]
      have h1 : ¬ c = '1' := by
        intro h1; apply hc; simp [isBinDigit, h1]
      simp [bin2DecAux, h0, h1]

/-- The lexer loop returns no token on an exhausted input, whatever the
fuel. -/
theorem lexifyAux_nil : ∀ (fuel n : Nat), lexifyAux fuel [] n = []
  | 0, _ => rfl
  | _ + 1, _ => rfl

/-- Any fuel at least the input length gives the same lexer result as
fuel exactly the input length. -/
theorem lexifyAux_fuel :
    ∀ (fuel : Nat) (s : List Char) (n : Nat), s.length ≤ fuel →
      lexifyAux fuel s n = lexifyAux s.length s n := by
  intro fuel
  induction fuel using Nat.strong_induction_on with
  | _ fuel ih =>
    intro s n hle
    match fuel, s with
    | 0, s =>
      have : s = [] := List.length_eq_zero.1 (Nat.le_zero.1 hle)
      rw [this, List.length_nil]
    | fuel + 1, [] => rw [lexifyAux_nil, List.length_nil, lexifyAux_nil]
    | fuel + 1, c :: rest =>
      have hrest : rest.length ≤ fuel := by
        simpa [Nat.succ_le_succ_iff] using hle
      simp only [List.length_cons, lexifyAux]
      by_cases hcap : TOKEN_CAP ≤ n
      · rw [if_pos hcap, if_pos hcap]
      · rw [if_neg hcap, if_neg hcap]
        by_cases hdig : isBinDigit c = true
        · rw [if_pos hdig, if_pos hdig]
          have hdrop : (rest.dropWhile isBinDigit).length ≤ rest.length :=
            lengthDropWhileLe isBinDigit rest
          rw [ih fuel (Nat.lt_succ_self fuel) _ _ (le_trans hdrop hrest),
            ih rest.length (Nat.lt_succ_of_le hrest) _ _ hdrop]
        · rw [if_neg hdig, if_neg hdig]
          by_cases hsym : isSymChar c = true
          · rw [if_pos hsym, if_pos hsym,
              ih fuel (Nat.lt_succ_self fuel) _ _ hrest,
              ih rest.length (Nat.lt_succ_of_le hrest) _ _ (Nat.le_refl _)]
          · rw [if_neg hsym, if_neg hsym,
              ih fuel (Nat.lt_succ_self fuel) _ _ hrest,
              ih rest.length (Nat.lt_succ_of_le hrest) _ _ (Nat.le_refl _)]

/-- A nonempty all-digit input lexes to a single operand token carrying
the whole input, for any token count below the cap. -/
theorem lexifyAux_digits (fuel : Nat) (c : Char) (rest : List Char)
    (hd : ∀ x ∈ c :: rest, isBinDigit x = true) (n : Nat) (hn : n < TOKEN_CAP) :
    lexifyAux (fuel + 1) (c :: rest) n = [⟨c :: rest, true⟩] := by
  have hc : isBinDigit c = true := hd c (List.mem_cons_self c rest)
  have hrest : ∀ x ∈ rest, isBinDigit x = true :=
    fun x hx => hd x (List.mem_cons_of_mem c hx)
  simp only [lexifyAux]
  rw [if_neg (Nat.not_le.2 hn), if_pos hc,
    takeWhile_all hrest, dropWhile_all hrest, lexifyAux_nil]

/-- A nonempty all-digit input lexes to a single operand token. -/
theorem lexify_digits (s : List Char) (hne : s ≠ [])
    (hd : ∀ c ∈ s, isBinDigit c = true) : lexify s = [⟨s, true⟩] := by
  match s, hne with
  | c :: rest, _ =>
    rw [lexify, List.length_cons]
    exact lexifyAux_digits rest.length c rest hd 0 (by norm_num [TOKEN_CAP])

/-- A queue holding one value not above the operator threshold evaluates
to that value. -/
theorem evalLoop_single (v : Int) (h : v ≤ 2 ^ 30) :
    evalLoop [v] [] = some v := by
  have h1 : evalLoop [v] [] = evalLoop [] (pushCap v []) := by
    simp only [evalLoop]
    rw [if_neg (Int.not_lt.2 h)]
  rw [h1]
  rfl

/-- Claim C1 as stated is false: the all-digit input `1`, 29 `0`s, `1`
(value `2 ^ 30 + 1`) makes the pipeline return the `BAD_RESULT` sentinel
instead of its binary value, because the decoded operand exceeds the
`2 ^ 30` operator threshold of the evaluator. -/
theorem c1_counterexample :
    (∀ c ∈ ('1' :: List.replicate 29 '0' ++ ['1']), isBinDigit c = true) ∧
    binVal ('1' :: List.replicate 29 '0' ++ ['1']) = 2 ^ 30 + 1 ∧
    parseAndEvaluate ('1' :: List.replicate 29 '0' ++ ['1']) = some BAD_RESULT ∧
    BAD_RESULT ≠ ((binVal ('1' :: List.replicate 29 '0' ++ ['1']) : Nat) : Int) := by
  refine ⟨by decide, by decide, by decide, by decide⟩

/-- Claim C1, amended: for every non-empty input of binary digits whose
big-endian value is at most `2 ^ 30`, the full pipeline (tokenize,
translate to RPN, evaluate) returns the binary value of the input. -/
theorem c1_operand_pipeline (s : List Char) (hne : s ≠ [])
    (hd : ∀ c ∈ s, isBinDigit c = true) (hv : binVal s ≤ 2 ^ 30) :
    parseAndEvaluate s = some ((binVal s : Nat) : Int) := by
  have hlex : lexify s = [⟨s, true⟩] := lexify_digits s hne hd
  have hfit : binVal s < 2 ^ 31 := lt_of_le_of_lt hv (by norm_num)
  have hbv : bin2Dec s = (binVal s : Int) := bin2Dec_exact s hd hfit
  have hle : ((binVal s : Nat) : Int) ≤ 2 ^ 30 := by exact_mod_cast hv
  rw [parseAndEvaluate]
  rw [if_neg (by simpa [List.length_eq_zero] using hne)]
  simp only [hlex, List.length_cons, List.length_nil]
  rw [if_neg (by norm_num)]
  rw [show interpretTokens [⟨s, true⟩] = evalLoop [bin2Dec s] [] by
    simp [interpretTokens, shuntAll, shuntToken, drainStack, enq]]
  rw [hbv]
  exact evalLoop_single _ hle

/-- Concrete instance of the amended claim C1 at the input `101`. -/
theorem c1_operand_pipeline_witness :
    parseAndEvaluate ['1', '0', '1'] = some 5 := by
  have h := c1_operand_pipeline ['1', '0', '1'] (by decide) (by decide) (by decide)
  rw [h]
  decide

/-- Claim C3: the source has no zero-divisor guard at all.  The `/` case
of `executeOperation` divides unconditionally, so evaluating `1/0`
reaches integer division by zero, which is undefined behaviour in C++
(modelled `none`) rather than a defined, reported failure — even though
the comment at the `BAD_RESULT` check in `interpretTokens` claims
division by zero is caught there. -/
theorem c3_division_by_zero_undefined :
    executeOperation 1 0 '/' = none ∧
    parseAndEvaluate ['1', '/', '0'] = none := by
  refine ⟨by decide, by decide⟩

/-- Claim C4: `(1+1` does fail (with the `BAD_RESULT` sentinel), but
`1+1)` evaluates to `2`: when a `)` is processed and the operator stack
empties before a `(` is found, the failed pop is silently ignored and
translation proceeds — although the sketch's own validator rejects the
same string. -/
theorem c4_unbalanced_paren_slips_through :
    parseAndEvaluate ['1', '+', '1', ')'] = some 2 ∧
    isValidExpression ['1', '+', '1', ')'] = false ∧
    parseAndEvaluate ['(', '1', '+', '1'] = some BAD_RESULT := by
  refine ⟨by decide, by decide, by decide⟩

/-- Claim C5 as stated is false in both directions of its `exactly when`:
the empty literal decodes to `0`, not a failure, and the all-valid
literal of 32 `1`s decodes to the failure sentinel `-1` by 32-bit
wraparound. -/
theorem c5_counterexample :
    bin2Dec [] = 0 ∧ (0 : Int) ≠ -1 ∧
    (∀ c ∈ List.replicate 32 '1', isBinDigit c = true) ∧
    bin2Dec (List.replicate 32 '1') = -1 := by
  refine ⟨rfl, by decide, by decide, by decide⟩

/-- Claim C5, amended: the decoder treats its argument as a big-endian
binary numeral — the four stated examples hold, and every all-digit
literal whose value is below `2 ^ 31` decodes exactly; it returns the
failure sentinel `-1` whenever some character is not `0` or `1`; the
empty literal decodes to `0` rather than failing (and by wraparound an
overflowing all-digit literal can also hit the sentinel). -/
theorem c5_decoder_behaviour :
    (bin2Dec ['0'] = 0 ∧ bin2Dec ['1'] = 1 ∧ bin2Dec ['1', '0', '1'] = 5 ∧
      bin2Dec ['1', '0', '1', '0'] = 10) ∧
    (∀ s : List Char, (∃ c ∈ s, isBinDigit c = false) → bin2Dec s = -1) ∧
    (∀ s : List Char, (∀ c ∈ s, isBinDigit c = true) → binVal s < 2 ^ 31 →
      bin2Dec s = ((binVal s : Nat) : Int)) ∧
    bin2Dec [] = 0 := by
  refine ⟨by decide, ?_, ?_, rfl⟩
  · intro s h
    exact bin2DecAux_invalid s h 0
  · intro s h hv
    exact bin2Dec_exact s h hv

/-- Concrete instance of the amended claim C5: a literal with an invalid
character decodes to the sentinel. -/
theorem c5_decoder_behaviour_witness :
    bin2Dec ['1', '2'] = -1 :=
  c5_decoder_behaviour.2.1 ['1', '2'] ⟨'2', by decide, by decide⟩

/-- On a nonempty all-digit input the whole pipeline reduces to running
the evaluator on the one decoded operand. -/
theorem parseAndEvaluate_digits (s : List Char) (hne : s ≠ [])
    (hd : ∀ c ∈ s, isBinDigit c = true) :
    parseAndEvaluate s = evalLoop [bin2Dec s] [] := by
  have hlex : lexify s = [⟨s, true⟩] := lexify_digits s hne hd
  rw [parseAndEvaluate]
  rw [if_neg (by simpa [List.length_eq_zero] using hne)]
  simp only [hlex, List.length_cons, List.length_nil]
  rw [if_neg (by norm_num)]
  simp [interpretTokens, shuntAll, shuntToken, drainStack, enq]

/-- A queue holding one value above the operator threshold makes the
evaluator treat it as an operator and abort for lack of operands. -/
theorem evalLoop_single_big (v : Int) (h : 2 ^ 30 < v) :
    evalLoop [v] [] = some BAD_RESULT := by
  simp only [evalLoop]
  rw [if_pos h]

/-- Claim C9 as stated is false: the expression `X-X` with
`X = 1` followed by 31 zeros contains a binary operand literal whose
decoded value `2 ^ 31` exceeds `2 ^ 30`, yet evaluation does return the
expression's binary value (`2 ^ 31 - 2 ^ 31 = 0`), because both operands
wrap to the same negative 32-bit value. -/
theorem c9_counterexample :
    (2 ^ 30 : Nat) < binVal ('1' :: List.replicate 31 '0') ∧
    parseAndEvaluate
        (('1' :: List.replicate 31 '0') ++ '-' :: '1' :: List.replicate 31 '0') =
      some (((binVal ('1' :: List.replicate 31 '0') : Nat) : Int) -
        ((binVal ('1' :: List.replicate 31 '0') : Nat) : Int)) := by
  refine ⟨by decide, by decide⟩

/-- Claim C9, amended: the RPN evaluator classifies a queue element as an
operator exactly when its value is greater than `2 ^ 30` — a single
queued value at most `2 ^ 30` evaluates to itself while a single queued
value above `2 ^ 30` is taken for an operator and aborts with
`BAD_RESULT` — and consequently every operand-only expression whose
big-endian value exceeds `2 ^ 30` fails to evaluate to its value (for
compound expressions containing such a literal the result can still
coincide with the expression's value, see the counterexample). -/
theorem c9_threshold_misclassification :
    (∀ v : Int, v ≤ 2 ^ 30 → evalLoop [v] [] = some v) ∧
    (∀ v : Int, 2 ^ 30 < v → evalLoop [v] [] = some BAD_RESULT) ∧
    (∀ s : List Char, (∀ c ∈ s, isBinDigit c = true) → 2 ^ 30 < binVal s →
      parseAndEvaluate s ≠ some ((binVal s : Nat) : Int)) := by
  refine ⟨fun v h => evalLoop_single v h, fun v h => evalLoop_single_big v h, ?_⟩
  intro s hd hv
  have hne : s ≠ [] := by
    intro h
    rw [h] at hv
    simp [binVal, binValFrom] at hv
  rw [parseAndEvaluate_digits s hne hd, bin2Dec_wrap s hd]
  have hcast : (2 ^ 30 : Int) < ((binVal s : Nat) : Int) := by exact_mod_cast hv
  by_cases hw : 2 ^ 30 < wrap32 ((binVal s : Nat) : Int)
  · rw [evalLoop_single_big _ hw]
    intro hcontra
    have := Option.some_inj.1 hcontra
    rw [BAD_RESULT] at this
    omega
  · rw [evalLoop_single _ (Int.not_lt.1 hw)]
    intro hcontra
    have := Option.some_inj.1 hcontra
    omega

/-- Concrete instances of the amended claim C9. -/
theorem c9_threshold_misclassification_witness :
    evalLoop [5] [] = some 5 ∧
    evalLoop [2 ^ 30 + 1] [] = some BAD_RESULT ∧
    parseAndEvaluate ('1' :: List.replicate 29 '0' ++ ['1']) ≠
      some ((binVal ('1' :: List.replicate 29 '0' ++ ['1']) : Nat) : Int) :=
  ⟨c9_threshold_misclassification.1 5 (by decide),
   c9_threshold_misclassification.2.1 (2 ^ 30 + 1) (by decide),
   c9_threshold_misclassification.2.2 ('1' :: List.replicate 29 '0' ++ ['1'])
     (by decide) (by decide)⟩

/-- Claim C10: whenever an operator application computes the sentinel
`-(2 ^ 31)` the evaluation aborts and reports exactly that sentinel (the
failure encoding), and a final value equal to the sentinel is returned
as-is, indistinguishable from a failure; concretely, the validator-
accepted input `2 ^ 15 * 2 ^ 16` in binary has the well-defined 32-bit
product `-(2 ^ 31)` and the engine reports it as the failure value. -/
theorem c10_sentinel_ambiguity :
    (∀ (t : Int) (rest stk : List Int) (a b : Int), 2 ^ 30 < t →
      executeOperation a b (codeToChar t) = some BAD_RESULT →
      evalLoop (t :: rest) (b :: a :: stk) = some BAD_RESULT) ∧
    evalLoop [] [BAD_RESULT] = some BAD_RESULT ∧
    isValidExpression
      (('1' :: List.replicate 15 '0') ++ '*' :: '1' :: List.replicate 16 '0') = true ∧
    parseAndEvaluate
      (('1' :: List.replicate 15 '0') ++ '*' :: '1' :: List.replicate 16 '0') =
        some BAD_RESULT := by
  refine ⟨?_, rfl, by decide, by decide⟩
  intro t rest stk a b ht hexec
  simp only [evalLoop]
  rw [if_pos ht, hexec]
  simp

/-- Concrete instance of claim C10: an addition whose 32-bit result is
the sentinel aborts the evaluation with the sentinel itself. -/
theorem c10_sentinel_ambiguity_witness :
    evalLoop [opCode '+'] [0, BAD_RESULT] = some BAD_RESULT :=
  c10_sentinel_ambiguity.1 (opCode '+') [] [] BAD_RESULT 0 (by decide) (by decide)

/-- The lexer never produces more than `TOKEN_CAP - n` further tokens
once `n` tokens have been counted. -/
theorem lexifyAux_length :
    ∀ (fuel : Nat) (s : List Char) (n : Nat),
      (lexifyAux fuel s n).length ≤ TOKEN_CAP - n
  | 0, _, _ => by simp [lexifyAux]
  | _ + 1, [], _ => by simp [lexifyAux]
  | fuel + 1, c :: rest, n => by
    simp only [lexifyAux]
    by_cases hcap : TOKEN_CAP ≤ n
    · rw [if_pos hcap]
      simp
    · rw [if_neg hcap]
      by_cases hdig : isBinDigit c = true
      · rw [if_pos hdig]
        have h := lexifyAux_length fuel (rest.dropWhile isBinDigit) (n + 1)
        simp only [List.length_cons]
        simp only [TOKEN_CAP] at hcap h ⊢
        omega
      · rw [if_neg hdig]
        by_cases hsym : isSymChar c = true
        · rw [if_pos hsym]
          have h := lexifyAux_length fuel rest (n + 1)
          simp only [List.length_cons]
          simp only [TOKEN_CAP] at hcap h ⊢
          omega
        · rw [if_neg hsym]
          exact lexifyAux_length fuel rest n

/-- Claim C7 as stated is false: the input `1`, 99 `)`, `+1` holds 102
tokens, beyond the 100-token cap, yet the engine reports no failure at
all — it silently drops the tokens past the cap and returns the ordinary
value 1 computed from the truncated input. -/
theorem c7_counterexample :
    TOKEN_CAP < countTokens ('1' :: List.replicate 99 ')' ++ ['+', '1']) ∧
    parseAndEvaluate ('1' :: List.replicate 99 ')' ++ ['+', '1']) = some 1 ∧
    (1 : Int) ≠ BAD_RESULT := by
  refine ⟨by decide, by decide, by decide⟩

/-- Claim C7, amended: capacity bounds are enforced by silent truncation,
not by an explicit failure — the lexer never yields more than 100 tokens
and simply ignores the rest of the input (so an over-long input can
return an ordinary, wrong result), and an enqueue onto the full 64-slot
output queue is silently dropped. -/
theorem c7_capacity_silent_truncation :
    (∀ s : List Char, (lexify s).length ≤ TOKEN_CAP) ∧
    (∀ (q : List Int) (x : Int), q.length = 64 → enq q x = q) ∧
    TOKEN_CAP < countTokens ('1' :: List.replicate 99 ')' ++ ['+', '1']) ∧
    parseAndEvaluate ('1' :: List.replicate 99 ')' ++ ['+', '1']) = some 1 := by
  refine ⟨?_, ?_, by decide, by decide⟩
  · intro s
    have h := lexifyAux_length s.length s 0
    simpa [lexify] using h
  · intro q x h
    simp [enq, h]

/-- Concrete instance of the amended claim C7: a push onto a full queue
is dropped. -/
theorem c7_capacity_silent_truncation_witness :
    enq (List.replicate 64 0) 5 = List.replicate 64 0 :=
  c7_capacity_silent_truncation.2.1 (List.replicate 64 0) 5 (by decide)

/-- The pop condition stated by the claim: the stacked operator is not a
`(` and its precedence is greater than or equal to the current
operator's. -/
def popPred (cur t : Char) : Bool :=
  decide (t ≠ '(' ∧ getOperatorPrecedence cur ≤ getOperatorPrecedence t)

/-- The operator loop of the shunting phase pops exactly the maximal
prefix of stacked operators satisfying `popPred` (provided the queue has
room for them, since a full queue drops elements). -/
theorem popOps_spec (cur : Char) :
    ∀ (st : List Char) (q : List Int), q.length + st.length ≤ 64 →
      popOps cur st q =
        (st.dropWhile (popPred cur),
         q ++ (st.takeWhile (popPred cur)).map opCode)
  | [], q, _ => by simp [popOps]
  | t :: rest, q, h => by
    by_cases hc : t ≠ '(' ∧ getOperatorPrecedence cur ≤ getOperatorPrecedence t
    · have hql : q.length < 64 := by
        simp only [List.length_cons] at h
        omega
      have hq : enq q (opCode t) = q ++ [opCode t] := by
        simp [enq, Nat.not_le.2 hql]
      have hlen : (q ++ [opCode t]).length + rest.length ≤ 64 := by
        simp only [List.length_append, List.length_cons, List.length_nil] at h ⊢
        omega
      rw [show popOps cur (t :: rest) q = popOps cur rest (enq q (opCode t)) by
        simp only [popOps]
        rw [if_pos hc]]
      rw [hq, popOps_spec cur rest (q ++ [opCode t]) hlen]
      rw [List.takeWhile_cons_of_pos (by simp [popPred, hc]),
        List.dropWhile_cons_of_pos (by simp [popPred, hc])]
      simp
    · rw [show popOps cur (t :: rest) q = (t :: rest, q) by
        simp only [popOps]
        rw [if_neg hc]]
      rw [List.takeWhile_cons_of_neg (by simp [popPred, hc]),
        List.dropWhile_cons_of_neg (by simp [popPred, hc])]
      simp

/-- A nonempty all-digit prefix followed by a non-digit lexes to one
operand token followed by the lexing of the remainder. -/
theorem lexifyAux_digitRun (fuel : Nat) (sa : List Char) (hna : sa ≠ [])
    (hd : ∀ c ∈ sa, isBinDigit c = true) (r0 : Char) (r : List Char)
    (hr : isBinDigit r0 = false) (n : Nat) (hn : n < TOKEN_CAP) :
    lexifyAux (fuel + 1) (sa ++ r0 :: r) n =
      ⟨sa, true⟩ :: lexifyAux fuel (r0 :: r) (n + 1) := by
  match sa, hna with
  | c :: sa1, _ =>
    have hc : isBinDigit c = true := hd c (List.mem_cons_self c sa1)
    have hsa1 : ∀ x ∈ sa1, isBinDigit x = true :=
      fun x hx => hd x (List.mem_cons_of_mem c hx)
    simp only [List.cons_append, lexifyAux, List.append_eq]
    rw [if_neg (Nat.not_le.2 hn), if_pos hc,
      takeWhile_append_all hsa1 (r0 :: r), dropWhile_append_all hsa1 (r0 :: r),
      List.takeWhile_cons_of_neg (by simp [hr]),
      List.dropWhile_cons_of_neg (by simp [hr])]
    simp

/-- A symbol character lexes to one symbol token followed by the lexing
of the remainder. -/
theorem lexifyAux_symbol (fuel : Nat) (c : Char) (r : List Char)
    (hcd : isBinDigit c = false) (hcs : isSymChar c = true) (n : Nat)
    (hn : n < TOKEN_CAP) :
    lexifyAux (fuel + 1) (c :: r) n = ⟨[c], false⟩ :: lexifyAux fuel r (n + 1) := by
  simp only [lexifyAux]
  rw [if_neg (Nat.not_le.2 hn), if_neg (by simp [hcd]), if_pos hcs]

/-- The five tokens of an `a+b*c` input built from three all-digit
operands. -/
theorem lexify_add_mul (sa sb sc : List Char)
    (hna : sa ≠ []) (hnb : sb ≠ []) (hnc : sc ≠ [])
    (hda : ∀ c ∈ sa, isBinDigit c = true)
    (hdb : ∀ c ∈ sb, isBinDigit c = true)
    (hdc : ∀ c ∈ sc, isBinDigit c = true) :
    lexify (sa ++ ('+' :: (sb ++ ('*' :: sc)))) =
      [⟨sa, true⟩, ⟨['+'], false⟩, ⟨sb, true⟩, ⟨['*'], false⟩, ⟨sc, true⟩] := by
  have hla : 1 ≤ sa.length := List.length_pos.2 hna
  have hlb : 1 ≤ sb.length := List.length_pos.2 hnb
  have hlc : 1 ≤ sc.length := List.length_pos.2 hnc
  have hlen : (sa ++ ('+' :: (sb ++ ('*' :: sc)))).length =
      (sa.length + sb.length + sc.length + 1) + 1 := by
    simp [List.length_append]
    omega
  rw [lexify, hlen,
    lexifyAux_digitRun (sa.length + sb.length + sc.length + 1) sa hna hda
      '+' (sb ++ ('*' :: sc)) (by decide) 0 (by norm_num [TOKEN_CAP])]
  have h2 : ('+' :: (sb ++ ('*' :: sc))).length ≤
      sa.length + sb.length + sc.length + 1 := by
    simp [List.length_append]
    omega
  rw [lexifyAux_fuel _ _ _ h2]
  rw [show ('+' :: (sb ++ ('*' :: sc))).length = (sb ++ ('*' :: sc)).length + 1 by
    simp]
  rw [lexifyAux_symbol _ '+' _ (by decide) (by decide) 1 (by norm_num [TOKEN_CAP])]
  rw [show (sb ++ ('*' :: sc)).length = (sb.length + sc.length) + 1 by
    simp [List.length_append]
    omega]
  rw [lexifyAux_digitRun (sb.length + sc.length) sb hnb hdb '*' sc (by decide)
    2 (by norm_num [TOKEN_CAP])]
  have h3 : ('*' :: sc).length ≤ sb.length + sc.length := by
    simp
    omega
  rw [lexifyAux_fuel _ _ _ h3]
  rw [show ('*' :: sc).length = sc.length + 1 by simp]
  rw [lexifyAux_symbol _ '*' _ (by decide) (by decide) 3 (by norm_num [TOKEN_CAP])]
  match sc, hnc with
  | c0 :: sc1, _ =>
    rw [List.length_cons,
      lexifyAux_digits _ c0 sc1 hdc 4 (by norm_num [TOKEN_CAP])]

/-- An operand-valued queue head is pushed onto the evaluation stack. -/
theorem evalLoop_push {t : Int} (h : ¬ 2 ^ 30 < t) (rest stack : List Int)
    (hlen : ¬ 64 ≤ stack.length) :
    evalLoop (t :: rest) stack = evalLoop rest (t :: stack) := by
  simp only [evalLoop]
  rw [if_neg h]
  simp only [pushCap]
  rw [if_neg hlen]

/-- An operator-valued queue head pops two operands and pushes the
operation result when that result is not the sentinel. -/
theorem evalLoop_op {t : Int} (ht : 2 ^ 30 < t) (rest : List Int)
    (b a : Int) (stk : List Int) (r : Int)
    (hexec : executeOperation a b (codeToChar t) = some r)
    (hr : ¬ r = BAD_RESULT) (hlen : ¬ 64 ≤ stk.length) :
    evalLoop (t :: rest) (b :: a :: stk) = evalLoop rest (r :: stk) := by
  simp only [evalLoop]
  rw [if_pos ht, hexec]
  simp [pushCap, hr, hlen]

/-- Evaluating the RPN stream of `a+b*c` for in-range operand values
yields `a + (b * c)`. -/
theorem evalLoop_add_mul (A B C : Int)
    (hA0 : 0 ≤ A) (hA : A ≤ 2 ^ 30) (hB0 : 0 ≤ B) (hB : B ≤ 2 ^ 30)
    (hC0 : 0 ≤ C) (hC : C ≤ 2 ^ 30)
    (hBC0 : 0 ≤ B * C) (hBC : B * C ≤ 2 ^ 30)
    (hS0 : 0 ≤ A + B * C) (hS : A + B * C ≤ 2 ^ 30) :
    evalLoop [A, B, C, opCode '*', opCode '+'] [] = some (A + B * C) := by
  have hchar : codeToChar (opCode '*') = '*' := by decide
  have hchap : codeToChar (opCode '+') = '+' := by decide
  have hexecBC : executeOperation B C (codeToChar (opCode '*')) = some (B * C) := by
    rw [hchar]
    rw [show executeOperation B C '*' = some (wrap32 (B * C)) from by
      simp [executeOperation]]
    rw [wrap32_id (by omega) (by omega)]
  have hexecA : executeOperation A (B * C) (codeToChar (opCode '+')) =
      some (A + B * C) := by
    rw [hchap]
    rw [show executeOperation A (B * C) '+' = some (wrap32 (A + B * C)) from by
      simp [executeOperation]]
    rw [wrap32_id (by omega) (by omega)]
  rw [evalLoop_push (Int.not_lt.2 hA) _ _ (by norm_num),
    evalLoop_push (Int.not_lt.2 hB) _ _ (by norm_num),
    evalLoop_push (Int.not_lt.2 hC) _ _ (by norm_num),
    evalLoop_op (by decide) _ C B [A] (B * C) hexecBC
      (by simp only [BAD_RESULT]; omega) (by norm_num),
    evalLoop_op (by decide) _ (B * C) A [] (A + B * C) hexecA
      (by simp only [BAD_RESULT]; omega) (by norm_num)]
  rfl

/-- Shunting the five tokens of `a+b*c` leaves `+` below `*` on the
operator stack (precedence 1 against 2, so `+` is not popped) and drains
them in the order `* +`, yielding the RPN queue `a b c * +`. -/
theorem interpret_add_mul (sa sb sc : List Char) :
    interpretTokens [⟨sa, true⟩, ⟨['+'], false⟩, ⟨sb, true⟩, ⟨['*'], false⟩, ⟨sc, true⟩] =
      evalLoop [bin2Dec sa, bin2Dec sb, bin2Dec sc, opCode '*', opCode '+'] [] := by
  simp [interpretTokens, shuntAll, shuntToken, popOps, enq, pushCap, drainStack,
    getOperatorPrecedence]

/-- Claim C2 as stated is false in its universal first part: with the
operand `a = 1` followed by 29 zeros and a final 1 (value `2 ^ 30 + 1`)
and `b = c = 1`, the expression `a+b*c` evaluates to the `BAD_RESULT`
sentinel, not to `a + (b * c)`, because the oversized operand is taken
for an operator. -/
theorem c2_counterexample :
    parseAndEvaluate (('1' :: List.replicate 29 '0' ++ ['1']) ++
      ('+' :: (['1'] ++ ('*' :: ['1'])))) = some BAD_RESULT ∧
    BAD_RESULT ≠
      ((binVal ('1' :: List.replicate 29 '0' ++ ['1']) : Nat) : Int) + 1 * 1 := by
  refine ⟨by decide, by decide⟩

/-- Claim C2, amended: for operands whose values (and the products and
sums the expression builds from them) stay at or below `2 ^ 30`, the
expression `a+b*c` evaluates to `a + (b * c)`, never `(a + b) * c`; the
translator pops a stacked operator before pushing the current one exactly
when the stacked operator is not `(` and its precedence — `+`,`-` have
precedence 1 and `*`,`/` have precedence 2 — is greater than or equal to
the current operator's (subject to queue capacity), popping the maximal
such prefix of the stack. -/
theorem c2_precedence :
    (∀ sa sb sc : List Char, sa ≠ [] → sb ≠ [] → sc ≠ [] →
      (∀ c ∈ sa, isBinDigit c = true) → (∀ c ∈ sb, isBinDigit c = true) →
      (∀ c ∈ sc, isBinDigit c = true) →
      binVal sa ≤ 2 ^ 30 → binVal sb ≤ 2 ^ 30 → binVal sc ≤ 2 ^ 30 →
      binVal sb * binVal sc ≤ 2 ^ 30 →
      binVal sa + binVal sb * binVal sc ≤ 2 ^ 30 →
      parseAndEvaluate (sa ++ ('+' :: (sb ++ ('*' :: sc)))) =
        some (((binVal sa : Nat) : Int) +
          ((binVal sb : Nat) : Int) * ((binVal sc : Nat) : Int))) ∧
    (∀ (cur : Char) (st : List Char) (q : List Int), q.length + st.length ≤ 64 →
      popOps cur st q =
        (st.dropWhile (popPred cur),
         q ++ (st.takeWhile (popPred cur)).map opCode)) ∧
    (getOperatorPrecedence '+' = 1 ∧ getOperatorPrecedence '-' = 1 ∧
      getOperatorPrecedence '*' = 2 ∧ getOperatorPrecedence '/' = 2) := by
  refine ⟨?_, fun cur st q h => popOps_spec cur st q h, by decide, by decide,
    by decide, by decide⟩
  intro sa sb sc hna hnb hnc hda hdb hdc hva hvb hvc hbc hsum
  have hlex := lexify_add_mul sa sb sc hna hnb hnc hda hdb hdc
  have hA : bin2Dec sa = ((binVal sa : Nat) : Int) :=
    bin2Dec_exact sa hda (lt_of_le_of_lt hva (by norm_num))
  have hB : bin2Dec sb = ((binVal sb : Nat) : Int) :=
    bin2Dec_exact sb hdb (lt_of_le_of_lt hvb (by norm_num))
  have hC : bin2Dec sc = ((binVal sc : Nat) : Int) :=
    bin2Dec_exact sc hdc (lt_of_le_of_lt hvc (by norm_num))
  have hne : (sa ++ ('+' :: (sb ++ ('*' :: sc)))) ≠ [] := by
    cases sa
    · exact absurd rfl hna
    · simp
  rw [parseAndEvaluate]
  rw [if_neg (by simpa [List.length_eq_zero] using hne)]
  simp only [hlex, List.length_cons, List.length_nil]
  rw [if_neg (by norm_num)]
  rw [interpret_add_mul sa sb sc, hA, hB, hC]
  have hBC : ((binVal sb : Nat) : Int) * ((binVal sc : Nat) : Int) =
      ((binVal sb * binVal sc : Nat) : Int) := by push_cast; ring
  refine evalLoop_add_mul _ _ _ (Int.natCast_nonneg _) (by exact_mod_cast hva)
    (Int.natCast_nonneg _) (by exact_mod_cast hvb)
    (Int.natCast_nonneg _) (by exact_mod_cast hvc)
    (by rw [hBC]; exact Int.natCast_nonneg _)
    (by rw [hBC]; exact_mod_cast hbc)
    (by rw [hBC]; positivity)
    (by rw [hBC]
        rw [show ((binVal sa : Nat) : Int) + ((binVal sb * binVal sc : Nat) : Int) =
          ((binVal sa + binVal sb * binVal sc : Nat) : Int) by push_cast; ring]
        exact_mod_cast hsum)

/-- Concrete instances of the amended claim C2: `1+1*1` evaluates to 2,
and processing `+` against the stack `[*, (]` pops exactly the `*`. -/
theorem c2_precedence_witness :
    parseAndEvaluate ['1', '+', '1', '*', '1'] = some 2 ∧
    popOps '+' ['*', '('] [] =
      (['('], [opCode '*']) := by
  constructor
  · have h := c2_precedence.1 ['1'] ['1'] ['1'] (by decide) (by decide) (by decide)
      (by decide) (by decide) (by decide) (by decide) (by decide) (by decide)
      (by decide) (by decide)
    rw [show (['1'] ++ ('+' :: (['1'] ++ ('*' :: ['1'])))) =
      ['1', '+', '1', '*', '1'] from rfl] at h
    rw [h]
    decide
  · have h := c2_precedence.2.1 '+' ['*', '('] [] (by norm_num)
    rw [h]
    decide

/-- Folding the parenthesis deltas from any start value shifts the total
by that value. -/
theorem foldlDelta : ∀ (l : List Char) (a : Int),
    l.foldl (fun x c => x + parenDelta c) a =
      a + l.foldl (fun x c => x + parenDelta c) 0
  | [], a => by simp
  | c :: rest, a => by
    rw [List.foldl_cons, List.foldl_cons, foldlDelta rest (a + parenDelta c),
      foldlDelta rest (0 + parenDelta c)]
    ring

/-- The running count after one more character. -/
theorem runCount_cons (c : Char) (l : List Char) :
    runCount (c :: l) = parenDelta c + runCount l := by
  simp only [runCount, List.foldl_cons]
  rw [foldlDelta l (0 + parenDelta c)]
  ring

/-- Inversion of one accepted step of the validator loop: the updated
open-count is nonnegative, the rest of the scan accepts, and the adjacent
pair just scanned is not a rejected pattern. -/
theorem validLoop_cons_true {prev : Option Char} {opn : Int} {c : Char}
    {rest : List Char} (h : validLoop prev opn (c :: rest) = true) :
    0 ≤ opn + parenDelta c ∧
    validLoop (some c) (opn + parenDelta c) rest = true ∧
    ∀ p, prev = some p → badPair p c = false := by
  have hopn2 : (if c = '(' then opn + 1 else if c = ')' then opn - 1 else opn) =
      opn + parenDelta c := by
    simp only [parenDelta]
    split_ifs <;> ring
  cases prev with
  | none =>
    simp only [validLoop] at h
    rw [hopn2] at h
    by_cases hneg : opn + parenDelta c < 0
    · rw [if_pos hneg] at h
      cases h
    · rw [if_neg hneg] at h
      refine ⟨by omega, h, ?_⟩
      intro p hp
      cases hp
  | some p =>
    simp only [validLoop] at h
    rw [hopn2] at h
    by_cases hneg : opn + parenDelta c < 0
    · rw [if_pos hneg] at h
      cases h
    · rw [if_neg hneg] at h
      by_cases h1 : (isOpChar p && isOpChar c) = true
      · rw [if_pos h1] at h
        cases h
      · rw [if_neg h1] at h
        by_cases h2 : ((p == '0' || p == '1' || p == ')') && c == '(') = true
        · rw [if_pos h2] at h
          cases h
        · rw [if_neg h2] at h
          by_cases h3 : (p == ')' && (c == '0' || c == '1' || c == '(')) = true
          · rw [if_pos h3] at h
            cases h
          · rw [if_neg h3] at h
            by_cases h4 : ((c == '*' || c == '/') && p == '(') = true
            · rw [if_pos h4] at h
              cases h
            · rw [if_neg h4] at h
              simp only [Bool.not_eq_true] at h1 h2 h3 h4
              refine ⟨by omega, h, ?_⟩
              intro p2 hp2
              cases hp2
              simp [badPair, h1, h2, h3, h4]

/-- An accepted scan ends with the open-count back at zero. -/
theorem validLoop_balance :
    ∀ (l : List Char) (prev : Option Char) (opn : Int),
      validLoop prev opn l = true → opn + runCount l = 0
  | [], prev, opn, h => by
    simp only [validLoop, beq_iff_eq] at h
    simp only [runCount, List.foldl_nil]
    omega
  | c :: rest, prev, opn, h => by
    obtain ⟨_, h2, _⟩ := validLoop_cons_true h
    have hrec := validLoop_balance rest (some c) _ h2
    rw [runCount_cons]
    omega

/-- An accepted scan keeps the running open-count nonnegative on every
prefix. -/
theorem validLoop_prefix_nonneg :
    ∀ (l : List Char) (prev : Option Char) (opn : Int),
      0 ≤ opn → validLoop prev opn l = true →
      ∀ n : Nat, 0 ≤ opn + runCount (l.take n)
  | [], _, opn, h0, _, n => by
    simp only [List.take_nil, runCount, List.foldl_nil]
    omega
  | _ :: _, _, opn, h0, _, 0 => by
    simp only [List.take_zero, runCount, List.foldl_nil]
    omega
  | c :: rest, prev, opn, h0, h, n + 1 => by
    obtain ⟨h1, h2, _⟩ := validLoop_cons_true h
    have hrec := validLoop_prefix_nonneg rest (some c) _ h1 h2 n
    simp only [List.take_succ_cons]
    rw [runCount_cons]
    omega

/-- The string the validator loop has scanned: the pending previous
character, when there is one, in front of the remaining input. -/
def withPrev : Option Char → List Char → List Char
  | none, l => l
  | some p, l => p :: l

/-- An accepted scan contains no rejected adjacent pair. -/
theorem validLoop_no_badPair :
    ∀ (l : List Char) (prev : Option Char) (opn : Int),
      validLoop prev opn l = true → hasBadPair (withPrev prev l) = false
  | [], prev, _, _ => by
    cases prev <;> rfl
  | c :: rest, prev, opn, h => by
    obtain ⟨_, h2, h3⟩ := validLoop_cons_true h
    have hrest := validLoop_no_badPair rest (some c) _ h2
    cases prev with
    | none => exact hrest
    | some p =>
      have hb : badPair p c = false := h3 p rfl
      simp only [withPrev] at hrest ⊢
      rw [show hasBadPair (p :: c :: rest) =
        (badPair p c || hasBadPair (c :: rest)) from rfl, hb, hrest]
      rfl

/-- The last-character test of `isValidExpression` agrees with the
claim-side `endsBadly`. -/
theorem endsBadly_eq :
    ∀ (rest : List Char) (c : Char),
      endsBadly (c :: rest) = isOpChar ((c :: rest).getLastD c)
  | [], c => rfl
  | c2 :: r, c => by
    rw [show endsBadly (c :: c2 :: r) = endsBadly (c2 :: r) by
      simp only [endsBadly, List.getLast?_cons_cons]]
    rw [endsBadly_eq r c2]
    simp only [List.getLastD_cons]

/-- Inversion of an accepting run of the validator. -/
theorem isValidExpression_true {s : List Char} (h : isValidExpression s = true) :
    s ≠ [] ∧ startsBadly s = false ∧ endsBadly s = false ∧
    validLoop none 0 s = true := by
  match s with
  | [] => exact absurd h (by simp [isValidExpression])
  | c :: rest =>
    simp only [isValidExpression] at h
    by_cases h1 : (c == '+' || c == '*' || c == '/') = true
    · rw [if_pos h1] at h
      cases h
    · rw [if_neg h1] at h
      by_cases h2 : isOpChar ((c :: rest).getLastD c) = true
      · rw [if_pos h2] at h
        cases h
      · rw [if_neg h2] at h
        simp only [Bool.not_eq_true] at h1 h2
        refine ⟨by simp, h1, ?_, h⟩
        rw [endsBadly_eq rest c]
        exact h2

/-- A string on which every prefix keeps the running count nonnegative
never dips negative. -/
theorem dipsNegative_false_of (s : List Char)
    (h : ∀ n : Nat, 0 ≤ runCount (s.take n)) : dipsNegative s = false := by
  rw [Bool.eq_false_iff]
  intro hcontra
  rw [dipsNegative, List.any_eq_true] at hcontra
  obtain ⟨n, _, hlt⟩ := hcontra
  rw [decide_eq_true_eq] at hlt
  exact absurd hlt (not_lt.2 (h n))

/-- Claim C6: the validator returns false whenever the input is empty,
begins with `+`, `*` or `/`, ends with one of `+ - * /`, has a running
parenthesis open-count that goes below 0 or does not end at 0, or
contains one of the rejected adjacent pairs (two operator characters, an
operand digit or `)` followed by `(`, a `)` followed by an operand digit
or `(`, or a `*` or `/` right after `(`). -/
theorem c6_validator_rejections (s : List Char)
    (h : s = [] ∨ startsBadly s = true ∨ endsBadly s = true ∨
      dipsNegative s = true ∨ runCount s ≠ 0 ∨ hasBadPair s = true) :
    isValidExpression s = false := by
  cases hv : isValidExpression s
  · rfl
  · exfalso
    obtain ⟨hne, hstart, hend, hloop⟩ := isValidExpression_true hv
    rcases h with h | h | h | h | h | h
    · exact hne h
    · rw [hstart] at h
      cases h
    · rw [hend] at h
      cases h
    · have hpre := validLoop_prefix_nonneg s none 0 (by omega) hloop
      have hdip := dipsNegative_false_of s (by
        intro n
        have := hpre n
        omega)
      rw [hdip] at h
      cases h
    · have := validLoop_balance s none 0 hloop
      omega
    · have hnb := validLoop_no_badPair s none 0 hloop
      simp only [withPrev] at hnb
      rw [hnb] at h
      cases h

/-- Concrete instance of claim C6: an input starting with `+` is
rejected. -/
theorem c6_validator_rejections_witness :
    isValidExpression ['+', '1'] = false :=
  c6_validator_rejections ['+', '1'] (Or.inr (Or.inl (by decide)))

/-- Concatenation of rendered pieces, one after the other. -/
def joinPieces : List String → String
  | [] => ""
  | s :: rest => s ++ joinPieces rest

/-- On an input with no operator or parenthesis characters, the lexer
yields exactly one operand token per maximal digit run, as long as the
run count stays within the token cap. -/
theorem lexifyAux_runs :
    ∀ (fuel : Nat) (s : List Char) (n : Nat),
      (∀ c ∈ s, isSymChar c = false) →
      n + (operandRunsAux fuel s).length ≤ TOKEN_CAP →
      lexifyAux fuel s n = (operandRunsAux fuel s).map (fun r => ⟨r, true⟩)
  | 0, _, _, _, _ => rfl
  | _ + 1, [], _, _, _ => rfl
  | fuel + 1, c :: rest, n, hs, hcap => by
    by_cases hdig : isBinDigit c = true
    · have hruns : operandRunsAux (fuel + 1) (c :: rest) =
          (c :: rest.takeWhile isBinDigit) ::
            operandRunsAux fuel (rest.dropWhile isBinDigit) := by
        simp only [operandRunsAux]
        rw [if_pos hdig]
      rw [hruns] at hcap ⊢
      simp only [List.length_cons] at hcap
      have hncap : ¬ TOKEN_CAP ≤ n := by omega
      have hsub : ∀ x ∈ rest.dropWhile isBinDigit, isSymChar x = false :=
        fun x hx => hs x (List.mem_cons_of_mem c
          ((List.dropWhile_sublist isBinDigit).subset hx))
      simp only [lexifyAux]
      rw [if_neg hncap, if_pos hdig,
        lexifyAux_runs fuel (rest.dropWhile isBinDigit) (n + 1) hsub (by omega)]
      rfl
    · have hsym : isSymChar c = false := hs c (List.mem_cons_self c rest)
      have hruns : operandRunsAux (fuel + 1) (c :: rest) =
          operandRunsAux fuel rest := by
        simp only [operandRunsAux]
        rw [if_neg hdig]
      rw [hruns] at hcap ⊢
      by_cases hncap : TOKEN_CAP ≤ n
      · have hzero : (operandRunsAux fuel rest).length = 0 := by
          simp only [TOKEN_CAP] at hcap hncap
          omega
        rw [List.length_eq_zero.1 hzero]
        simp only [lexifyAux]
        rw [if_pos hncap]
        rfl
      · simp only [lexifyAux]
        rw [if_neg hncap, if_neg hdig,
          if_neg (by rw [hsym]; exact Bool.false_ne_true)]
        exact lexifyAux_runs fuel rest n
          (fun x hx => hs x (List.mem_cons_of_mem c hx)) hcap

/-- Every maximal digit run is nonempty and consists of binary digits. -/
theorem operandRunsAux_digits :
    ∀ (fuel : Nat) (s : List Char) (r : List Char),
      r ∈ operandRunsAux fuel s → r ≠ [] ∧ ∀ c ∈ r, isBinDigit c = true
  | 0, _, _, h => by cases h
  | _ + 1, [], _, h => by cases h
  | fuel + 1, c :: rest, r, h => by
    by_cases hdig : isBinDigit c = true
    · rw [show operandRunsAux (fuel + 1) (c :: rest) =
          (c :: rest.takeWhile isBinDigit) ::
            operandRunsAux fuel (rest.dropWhile isBinDigit) from by
        simp only [operandRunsAux]
        rw [if_pos hdig]] at h
      rcases List.mem_cons.1 h with rfl | h2
      · refine ⟨by simp, ?_⟩
        intro x hx
        rcases List.mem_cons.1 hx with rfl | hx2
        · exact hdig
        · exact List.mem_takeWhile_imp hx2
      · exact operandRunsAux_digits fuel _ r h2
    · rw [show operandRunsAux (fuel + 1) (c :: rest) =
          operandRunsAux fuel rest from by
        simp only [operandRunsAux]
        rw [if_neg hdig]] at h
      exact operandRunsAux_digits fuel rest r h

/-- The display fold appends the rendered pieces after the accumulator. -/
theorem foldl_tokenText :
    ∀ (ts : List TokenNode) (acc : String),
      ts.foldl (fun out t => out ++ tokenText t ++ " ") acc =
        acc ++ joinPieces (ts.map (fun t => tokenText t ++ " "))
  | [], acc => by simp [joinPieces]
  | t :: ts, acc => by
    rw [List.foldl_cons, foldl_tokenText ts (acc ++ tokenText t ++ " ")]
    simp only [List.map_cons, joinPieces, String.append_assoc]

/-- The rendered text of an operand token carrying an in-range all-digit
run is its decimal value. -/
theorem tokenText_run (r : List Char) (hd : ∀ c ∈ r, isBinDigit c = true)
    (hv : binVal r < 2 ^ 31) :
    tokenText ⟨r, true⟩ = Nat.repr (binVal r) := by
  have hbd : bin2Dec r = ((binVal r : Nat) : Int) := bin2Dec_exact r hd hv
  simp only [tokenText]
  rw [hbd, if_pos (Int.natCast_nonneg _), Int.toNat_natCast, if_pos trivial]

/-- Claim C8 as stated is false: the printer puts a space after every
piece, including the last, so `101` renders as `5 ` (trailing space)
rather than the space-joined `5`; and an operand whose decoded 32-bit
value is negative by wraparound renders as the placeholder `?`. -/
theorem c8_counterexample :
    displayInDecimal ['1', '0', '1'] = "5 " ∧
    ("5 " : String) ≠ "5" ∧
    displayInDecimal (List.replicate 32 '1') = "? " := by
  refine ⟨by decide, by decide, by decide⟩

/-- Claim C8, amended: on an operand-only input (no operator or
parenthesis characters) whose digit runs number at most the token cap
and each decode below `2 ^ 31`, the printer returns the decimal values of
the operands in order, each followed by exactly one space (so the output
carries a trailing space and is not merely space-separated). -/
theorem c8_render (s : List Char)
    (hs : ∀ c ∈ s, isSymChar c = false)
    (hcap : (operandRuns s).length ≤ TOKEN_CAP)
    (hv : ∀ r ∈ operandRuns s, binVal r < 2 ^ 31) :
    displayInDecimal s =
      joinPieces ((operandRuns s).map (fun r => Nat.repr (binVal r) ++ " ")) := by
  have hlex : lexify s = (operandRuns s).map (fun r => ⟨r, true⟩) := by
    rw [lexify, operandRuns]
    exact lexifyAux_runs s.length s 0 hs (by
      rw [operandRuns] at hcap
      omega)
  rw [displayInDecimal, hlex, foldl_tokenText, List.map_map]
  rw [show ((operandRuns s).map ((fun t => tokenText t ++ " ") ∘ fun r => ⟨r, true⟩)) =
      (operandRuns s).map (fun r => Nat.repr (binVal r) ++ " ") from by
    refine List.map_congr_left ?_
    intro r hr
    have hrd := operandRunsAux_digits s.length s r (by
      rw [operandRuns] at hr
      exact hr)
    simp only [Function.comp]
    rw [tokenText_run r hrd.2 (hv r hr)]]
  simp

/-- Concrete instance of the amended claim C8: the two operands of
`101 11` (separated by a skipped blank) render as `5 3 `. -/
theorem c8_render_witness :
    displayInDecimal ['1', '0', '1', ' ', '1', '1'] = "5 3 " := by
  have h := c8_render ['1', '0', '1', ' ', '1', '1'] (by decide) (by decide)
    (by decide)
  rw [h]
  decide
